import Mathlib

/-!
Verification of the bit-banged serial debug transmitter in `fw/otavio.h`
(namespace `moteus`): `CpuDelay`, `SendDebug` and `SendDebugf`.

The embedding models `SendDebug` as the trace of observable actions it
performs (interrupt mask changes, pin writes, bit-time delays), in source
order, and `CpuDelay` (free-running `DWT->CYCCNT` form) as the number of
counter ticks elapsed when its spin loop exits.
-/

namespace Moteus

/-- Modulus of the 32-bit `DWT->CYCCNT` cycle counter. -/
def UINT32 : Nat := 2 ^ 32

/-- Value of the free-running cycle counter `t` ticks after it read `start`. -/
def cyccnt (start t : Nat) : Nat := (start + t) % UINT32

/-- Exit condition of the spin loop in `CpuDelay`: the loop
`while (DWT->CYCCNT < target_cycle)` exits when the current counter value is
no longer below `target_cycle = start_cycle + cycles` (32-bit wrapping sum). -/
def cpuDelayDone (start cycles t : Nat) : Prop :=
  ¬ cyccnt start t < (start + cycles) % UINT32

instance (start cycles : Nat) : DecidablePred (cpuDelayDone start cycles) :=
  fun _ => instDecidableNot

/-- Number of counter ticks elapsed when `CpuDelay(cycles)`, entered with the
counter reading `start`, returns: the first tick at which the spin loop's
exit condition holds. -/
def cpuDelayElapsed (start cycles : Nat) : Nat :=
  Nat.find (show ∃ t, cpuDelayDone start cycles t from
    ⟨(start + cycles) % UINT32 + (UINT32 - start % UINT32), by
      unfold cpuDelayDone cyccnt UINT32
      omega⟩)

/-- An observable action performed by `SendDebug`. -/
inductive Act : Type
  | pinWrite (level : Nat)
  | delay
  | disableIrq
  | enableIrq
  deriving DecidableEq

/-- Bit `i` of byte `b`, as the source computes it: `(*str >> i) & 0x01`. -/
def bitOf (b i : Nat) : Nat := (b >>> i) &&& 1

/-- The ten pin levels of one serial frame for byte `b`: a low start bit,
the eight data bits least-significant first, and a high stop bit. -/
def frame (b : Nat) : List Nat :=
  0 :: ((List.range 8).map (bitOf b) ++ [1])

/-- Actions of one frame: each of the ten pin writes is followed by one
bit-time delay (`CpuDelay(CPU_CYCLES)`). -/
def frameActs (b : Nat) : List Act :=
  (frame b).flatMap (fun l => [Act.pinWrite l, Act.delay])

/-- The bytes consumed by the `while (*str)` loop: those strictly before the
first NUL byte of the argument. -/
def cStr : List Nat → List Nat
  | [] => []
  | b :: bs => if b = 0 then [] else b :: cStr bs

/-- Trace of `SendDebug(str)`.  `irqOn` is whether maskable interrupts are
enabled at entry (`PRIMASK == 0`).  In source order: `__disable_irq()`; the
`DigitalOut db2(pin, 1)` constructor drives the pin high; one frame per byte
before the first NUL; the final `db2.write(1)`; and `__enable_irq()` exactly
when `primask` was 0 at entry. -/
def sendDebugTrace (bytes : List Nat) (irqOn : Bool) : List Act :=
  Act.disableIrq ::
  Act.pinWrite 1 ::
  ((cStr bytes).flatMap frameActs ++
    [Act.pinWrite 1] ++
    (if irqOn then [Act.enableIrq] else []))

/-- Pin level after executing `acts`, starting from pin level `p`. -/
def pinAfter (p : Nat) : List Act → Nat
  | [] => p
  | Act.pinWrite l :: rest => pinAfter l rest
  | Act.delay :: rest => pinAfter p rest
  | Act.disableIrq :: rest => pinAfter p rest
  | Act.enableIrq :: rest => pinAfter p rest

/-- The pin level held during each bit-time delay, in order, starting from pin
level `p`: the level an 8-N-1 receiver samples in each bit slot. -/
def slots (p : Nat) : List Act → List Nat
  | [] => []
  | Act.pinWrite l :: rest => slots l rest
  | Act.delay :: rest => p :: slots p rest
  | Act.disableIrq :: rest => slots p rest
  | Act.enableIrq :: rest => slots p rest

/-- Number of bit-time delay intervals in a trace. -/
def delayCount : List Act → Nat
  | [] => 0
  | Act.delay :: rest => delayCount rest + 1
  | _ :: rest => delayCount rest

/-- The sequence of levels written to the pin by a trace. -/
def writesOf : List Act → List Nat
  | [] => []
  | Act.pinWrite l :: rest => l :: writesOf rest
  | _ :: rest => writesOf rest

/-- Effect of one action on the interrupt-enabled state. -/
def stepIrq (e : Bool) : Act → Bool
  | Act.disableIrq => false
  | Act.enableIrq => true
  | Act.pinWrite _ => e
  | Act.delay => e

/-- Interrupt-enabled state after executing `acts`, starting from `e`. -/
def irqAfter (e : Bool) : List Act → Bool
  | [] => e
  | a :: rest => irqAfter (stepIrq e a) rest

/-- Each action paired with the interrupt-enabled state in force while it
executes. -/
def irqWhen (e : Bool) : List Act → List (Act × Bool)
  | [] => []
  | a :: rest => (a, e) :: irqWhen (stepIrq e a) rest

/-- Value of a byte from its bits, least-significant first. -/
def byteOfBits : List Nat → Nat
  | [] => 0
  | b :: rest => b + 2 * byteOfBits rest

/-- Receiver model for standard asynchronous-serial 8-N-1 framing over the
sampled bit slots: repeatedly read a low start slot, eight data slots
(least-significant first) and a high stop slot; reject any other shape. -/
def decodeFrames : List Nat → Option (List Nat)
  | [] => some []
  | s :: b0 :: b1 :: b2 :: b3 :: b4 :: b5 :: b6 :: b7 :: st :: rest =>
    if s = 0 ∧ st = 1 then
      (decodeFrames rest).map (fun bs => byteOfBits [b0, b1, b2, b3, b4, b5, b6, b7] :: bs)
    else none
  | _ => none

/-- Buffer contents left by `snprintf(buffer, cap, format, args...)` under
standard C `snprintf` semantics, given the full rendered text of the format
substitution: at most `cap - 1` rendered bytes, then a NUL terminator. -/
def snprintfBuf (cap : Nat) (rendered : List Nat) : List Nat :=
  rendered.take (cap - 1) ++ [0]

/-- Trace of `SendDebugf(format, args...)`, given the rendered text of the
format substitution: `snprintf` into the 128-byte `buffer`, then
`SendDebug(buffer)`. -/
def sendDebugfTrace (rendered : List Nat) (irqOn : Bool) : List Act :=
  sendDebugTrace (snprintfBuf 128 rendered) irqOn

/-! Helper lemmas about the trace semantics. -/

theorem pinAfter_append (p : Nat) (xs ys : List Act) :
    pinAfter p (xs ++ ys) = pinAfter (pinAfter p xs) ys := by
  induction xs generalizing p with
  | nil => rfl
  | cons a rest ih => cases a <;> simp [pinAfter, ih]

theorem slots_append (p : Nat) (xs ys : List Act) :
    slots p (xs ++ ys) = slots p xs ++ slots (pinAfter p xs) ys := by
  induction xs generalizing p with
  | nil => rfl
  | cons a rest ih => cases a <;> simp [slots, pinAfter, ih]

theorem delayCount_append (xs ys : List Act) :
    delayCount (xs ++ ys) = delayCount xs + delayCount ys := by
  induction xs with
  | nil => simp [delayCount]
  | cons a rest ih =>
    cases a <;> simp [delayCount, ih]
    omega

theorem irqAfter_append (e : Bool) (xs ys : List Act) :
    irqAfter e (xs ++ ys) = irqAfter (irqAfter e xs) ys := by
  induction xs generalizing e with
  | nil => rfl
  | cons a rest ih => simp [irqAfter, ih]

theorem irqWhen_append (e : Bool) (xs ys : List Act) :
    irqWhen e (xs ++ ys) = irqWhen e xs ++ irqWhen (irqAfter e xs) ys := by
  induction xs generalizing e with
  | nil => rfl
  | cons a rest ih => simp [irqWhen, irqAfter, ih]

theorem slots_writeDelay (p : Nat) (L : List Nat) :
    slots p (L.flatMap (fun l => [Act.pinWrite l, Act.delay])) = L := by
  induction L generalizing p with
  | nil => rfl
  | cons l rest ih =>
    rw [List.flatMap_cons]
    simp only [List.cons_append, List.append_eq, List.nil_append, slots]
    rw [ih]

theorem pinAfter_writeDelay (p : Nat) (L : List Nat) :
    pinAfter p (L.flatMap (fun l => [Act.pinWrite l, Act.delay])) = L.getLastD p := by
  induction L generalizing p with
  | nil => rfl
  | cons l rest ih =>
    rw [List.flatMap_cons]
    simp only [List.cons_append, List.append_eq, List.nil_append, pinAfter]
    rw [ih, List.getLastD_cons]

theorem delayCount_writeDelay (L : List Nat) :
    delayCount (L.flatMap (fun l => [Act.pinWrite l, Act.delay])) = L.length := by
  induction L with
  | nil => rfl
  | cons l rest ih =>
    rw [List.flatMap_cons]
    simp only [List.cons_append, List.append_eq, List.nil_append, delayCount, List.length_cons]
    rw [ih]

theorem irqAfter_writeDelay (e : Bool) (L : List Nat) :
    irqAfter e (L.flatMap (fun l => [Act.pinWrite l, Act.delay])) = e := by
  induction L with
  | nil => rfl
  | cons l rest ih =>
    rw [List.flatMap_cons]
    simp only [List.cons_append, List.append_eq, List.nil_append, irqAfter, stepIrq]
    exact ih

theorem enable_not_mem_writeDelay (L : List Nat) :
    Act.enableIrq ∉ L.flatMap (fun l => [Act.pinWrite l, Act.delay]) := by
  induction L with
  | nil => simp
  | cons l rest ih => simp [List.flatMap_cons, ih]

theorem slots_frameActs (p b : Nat) : slots p (frameActs b) = frame b :=
  slots_writeDelay p (frame b)

theorem pinAfter_frameActs (p b : Nat) : pinAfter p (frameActs b) = 1 := by
  rw [frameActs, pinAfter_writeDelay, frame, List.getLastD_cons]
  simp

theorem delayCount_frameActs (b : Nat) : delayCount (frameActs b) = 10 := by
  rw [frameActs, delayCount_writeDelay, frame]
  simp

theorem slots_flatMap_frames (p : Nat) (bs : List Nat) :
    slots p (bs.flatMap frameActs) = bs.flatMap frame := by
  induction bs generalizing p with
  | nil => rfl
  | cons b rest ih =>
    simp [List.flatMap_cons, slots_append, slots_frameActs, pinAfter_frameActs, ih]

theorem delayCount_flatMap_frames (bs : List Nat) :
    delayCount (bs.flatMap frameActs) = 10 * bs.length := by
  induction bs with
  | nil => rfl
  | cons b rest ih =>
    simp [List.flatMap_cons, delayCount_append, delayCount_frameActs, ih]
    ring

theorem irqAfter_flatMap_frames (e : Bool) (bs : List Nat) :
    irqAfter e (bs.flatMap frameActs) = e := by
  induction bs with
  | nil => rfl
  | cons b rest ih =>
    simp [List.flatMap_cons, irqAfter_append, frameActs, irqAfter_writeDelay, ih]

theorem enable_not_mem_frames (bs : List Nat) :
    Act.enableIrq ∉ bs.flatMap frameActs := by
  induction bs with
  | nil => simp
  | cons b rest ih =>
    simp only [List.flatMap_cons, List.mem_append]
    rintro (h | h)
    · exact enable_not_mem_writeDelay (frame b) h
    · exact ih h

theorem irqWhen_false_of_no_enable (acts : List Act) (h : Act.enableIrq ∉ acts) :
    ∀ q ∈ irqWhen false acts, q.2 = false := by
  induction acts with
  | nil => simp [irqWhen]
  | cons a rest ih =>
    intro q hq
    rw [irqWhen, List.mem_cons] at hq
    rcases hq with rfl | hq
    · rfl
    · have ha : stepIrq false a = false := by
        cases a <;> simp [stepIrq]
        simp_all
      rw [ha] at hq
      exact ih (fun hm => h (List.mem_cons_of_mem a hm)) q hq

theorem cStr_eq_self (bytes : List Nat) (h : ∀ b ∈ bytes, b ≠ 0) :
    cStr bytes = bytes := by
  induction bytes with
  | nil => rfl
  | cons b rest ih =>
    rw [cStr, if_neg (h b (List.mem_cons_self b rest)),
      ih (fun x hx => h x (List.mem_cons_of_mem b hx))]

theorem cStr_eq_takeWhile (bytes : List Nat) :
    cStr bytes = bytes.takeWhile (fun b => b != 0) := by
  induction bytes with
  | nil => rfl
  | cons b rest ih =>
    by_cases hb : b = 0 <;> simp [cStr, List.takeWhile_cons, hb, ih]

theorem cStr_all_ne (bytes : List Nat) :
    (cStr bytes).all (fun b => b != 0) = true := by
  induction bytes with
  | nil => rfl
  | cons b rest ih =>
    by_cases hb : b = 0 <;> simp [cStr, hb, ih]

theorem cStr_append_nul (l : List Nat) (h : ∀ b ∈ l, b ≠ 0) :
    cStr (l ++ [0]) = l := by
  induction l with
  | nil => rfl
  | cons b rest ih =>
    rw [List.cons_append, cStr, if_neg (h b (List.mem_cons_self b rest)),
      ih (fun x hx => h x (List.mem_cons_of_mem b hx))]

theorem slots_trace (p : Nat) (bytes : List Nat) (irqOn : Bool) :
    slots p (sendDebugTrace bytes irqOn) = (cStr bytes).flatMap frame := by
  cases irqOn <;>
    simp [sendDebugTrace, slots, slots_append, slots_flatMap_frames]

theorem pinAfter_trace (p : Nat) (bytes : List Nat) (irqOn : Bool) :
    pinAfter p (sendDebugTrace bytes irqOn) = 1 := by
  cases irqOn <;>
    simp [sendDebugTrace, pinAfter, pinAfter_append]

theorem delayCount_trace (bytes : List Nat) (irqOn : Bool) :
    delayCount (sendDebugTrace bytes irqOn) = 10 * (cStr bytes).length := by
  cases irqOn <;>
    simp [sendDebugTrace, delayCount, delayCount_append, delayCount_flatMap_frames]

theorem frame_eq_cons (b : Nat) :
    frame b = [0, bitOf b 0, bitOf b 1, bitOf b 2, bitOf b 3, bitOf b 4,
      bitOf b 5, bitOf b 6, bitOf b 7, 1] := rfl

theorem bitOf_eq_div_mod (b i : Nat) : bitOf b i = b / 2 ^ i % 2 := by
  rw [bitOf, Nat.shiftRight_eq_div_pow, Nat.and_one_is_mod]

theorem byteOfBits_bitOf (b : Nat) (hb : b < 256) :
    byteOfBits [bitOf b 0, bitOf b 1, bitOf b 2, bitOf b 3,
      bitOf b 4, bitOf b 5, bitOf b 6, bitOf b 7] = b := by
  simp only [byteOfBits, bitOf_eq_div_mod]
  norm_num
  omega

theorem decodeFrames_frame_append (b : Nat) (hb : b < 256) (rest : List Nat) :
    decodeFrames (frame b ++ rest) = (decodeFrames rest).map (fun bs => b :: bs) := by
  rw [frame_eq_cons]
  simp only [List.cons_append, List.nil_append]
  simp only [decodeFrames, and_self, if_true, if_pos]
  simp only [byteOfBits_bitOf b hb]

theorem decodeFrames_flatMap (bs : List Nat) (h : ∀ b ∈ bs, b < 256) :
    decodeFrames (bs.flatMap frame) = some bs := by
  induction bs with
  | nil => rfl
  | cons b rest ih =>
    rw [List.flatMap_cons,
      decodeFrames_frame_append b (h b (List.mem_cons_self b rest)),
      ih (fun x hx => h x (List.mem_cons_of_mem b hx))]
    rfl

theorem sendDebugTrace_false (bytes : List Nat) :
    sendDebugTrace bytes false =
      Act.disableIrq :: Act.pinWrite 1 ::
        ((cStr bytes).flatMap frameActs ++ [Act.pinWrite 1]) := by
  simp [sendDebugTrace]

theorem sendDebugTrace_true (bytes : List Nat) :
    sendDebugTrace bytes true =
      Act.disableIrq :: Act.pinWrite 1 ::
        ((cStr bytes).flatMap frameActs ++ [Act.pinWrite 1] ++ [Act.enableIrq]) := by
  simp [sendDebugTrace]

theorem irqWhen_trace_snd (bytes : List Nat) (irqOn : Bool) :
    ∀ q ∈ irqWhen irqOn (sendDebugTrace bytes irqOn),
      q.1 = Act.disableIrq ∨ q.2 = false := by
  intro q hq
  cases irqOn with
  | false =>
    rw [sendDebugTrace_false] at hq
    simp only [irqWhen, stepIrq] at hq
    rw [irqWhen_append, irqAfter_flatMap_frames] at hq
    simp only [irqWhen, stepIrq, List.mem_cons, List.mem_append, List.not_mem_nil,
      or_false] at hq
    rcases hq with rfl | rfl | hq | rfl
    · exact Or.inl rfl
    · exact Or.inr rfl
    · exact Or.inr (irqWhen_false_of_no_enable _ (enable_not_mem_frames _) q hq)
    · exact Or.inr rfl
  | true =>
    rw [sendDebugTrace_true] at hq
    simp only [irqWhen, stepIrq] at hq
    rw [irqWhen_append, irqWhen_append, irqAfter_append, irqAfter_flatMap_frames] at hq
    simp only [irqWhen, stepIrq, irqAfter, List.mem_cons, List.mem_append,
      List.not_mem_nil, or_false] at hq
    rcases hq with rfl | rfl | (hq | rfl) | rfl
    · exact Or.inl rfl
    · exact Or.inr rfl
    · exact Or.inr (irqWhen_false_of_no_enable _ (enable_not_mem_frames _) q hq)
    · exact Or.inr rfl
    · exact Or.inr rfl

theorem cpuDelayElapsed_no_wrap (start cycles : Nat) (h : start + cycles < UINT32) :
    cpuDelayElapsed start cycles = cycles := by
  rw [cpuDelayElapsed, Nat.find_eq_iff]
  have hU : UINT32 = 4294967296 := by norm_num [UINT32]
  constructor
  · unfold cpuDelayDone cyccnt
    rw [hU] at h ⊢
    omega
  · intro m hm
    unfold cpuDelayDone cyccnt
    rw [hU] at h ⊢
    omega

/-! Claim theorems. -/

/-- C1: for every input, `SendDebug` emits each byte as one 10-slot serial
frame in order — pin low for the start bit, then bit `i = 0..7` driven to
`(byte >> i) & 1` (least-significant first), then high for the stop bit —
and for the single input byte 0x41 the ten slot levels are
0,1,0,0,0,0,0,1,0,1. -/
theorem sendDebug_frames (bytes : List Nat) (irqOn : Bool) (p : Nat) :
    slots p (sendDebugTrace bytes irqOn) = (cStr bytes).flatMap frame ∧
    slots p (sendDebugTrace [0x41] irqOn) = [0, 1, 0, 0, 0, 0, 0, 1, 0, 1] :=
  ⟨slots_trace p bytes irqOn, by rw [slots_trace]; decide⟩

/-- C2 (code bug): entered with the counter 1 tick before the 32-bit wrap
boundary, `CpuDelay(2)` exits after 0 elapsed ticks — the loop compares
`DWT->CYCCNT < target_cycle` directly, so a wrapped `target_cycle` makes the
wait complete immediately instead of after at least `cycles` ticks. -/
theorem cpuDelay_wrap_exits_early :
    cpuDelayElapsed (UINT32 - 1) 2 = 0 ∧ ¬ 2 ≤ cpuDelayElapsed (UINT32 - 1) 2 := by
  have h0 : cpuDelayElapsed (UINT32 - 1) 2 = 0 := by
    rw [cpuDelayElapsed, Nat.find_eq_zero]
    unfold cpuDelayDone cyccnt UINT32
    decide
  exact ⟨h0, by rw [h0]; omega⟩

/-- C3: for every NUL-free input string of length N, `SendDebug` performs
exactly 10 × N bit-time delay intervals (one `CpuDelay` per bit slot). -/
theorem sendDebug_delayCount (bytes : List Nat) (irqOn : Bool)
    (h : ∀ b ∈ bytes, b ≠ 0) :
    delayCount (sendDebugTrace bytes irqOn) = 10 * bytes.length := by
  rw [delayCount_trace, cStr_eq_self bytes h]

theorem sendDebug_delayCount_witness :
    (∀ b ∈ [72, 105], b ≠ (0 : Nat)) ∧
      delayCount (sendDebugTrace [72, 105] true) = 10 * 2 :=
  ⟨by decide, sendDebug_delayCount [72, 105] true (by decide)⟩

/-- C4: every pin write and every bit-time delay of a `SendDebug` call — the
whole of every start, data and stop bit — executes with maskable interrupts
disabled. -/
theorem sendDebug_irqOff_during (bytes : List Nat) (irqOn : Bool) (a : Act) (e : Bool)
    (hmem : (a, e) ∈ irqWhen irqOn (sendDebugTrace bytes irqOn))
    (ha : a = Act.delay ∨ ∃ l, a = Act.pinWrite l) : e = false := by
  rcases irqWhen_trace_snd bytes irqOn (a, e) hmem with h1 | h2
  · rcases ha with rfl | ⟨l, rfl⟩ <;> exact Act.noConfusion h1
  · exact h2

theorem sendDebug_irqOff_during_witness :
    (Act.delay, false) ∈ irqWhen true (sendDebugTrace [65] true) ∧ false = false :=
  ⟨by decide,
    sendDebug_irqOff_during [65] true Act.delay false (by decide) (Or.inl rfl)⟩

/-- C5: `SendDebug` restores the interrupt-enabled state it found at entry:
enabled before implies enabled after, disabled before implies disabled
after. -/
theorem sendDebug_restores_irq (bytes : List Nat) (irqOn : Bool) :
    irqAfter irqOn (sendDebugTrace bytes irqOn) = irqOn := by
  cases irqOn <;>
    simp [sendDebugTrace, irqAfter, stepIrq, irqAfter_append, irqAfter_flatMap_frames]

/-- C6: on the empty string `SendDebug` emits zero frames — no bit-time delay,
no low level ever written (the only writes are the idle-high level, so a pin
already idle-high never changes) — and the interrupt-enabled state is
unchanged. -/
theorem sendDebug_empty (irqOn : Bool) (p : Nat) :
    writesOf (sendDebugTrace [] irqOn) = [1, 1] ∧
    delayCount (sendDebugTrace [] irqOn) = 0 ∧
    slots p (sendDebugTrace [] irqOn) = [] ∧
    pinAfter 1 (sendDebugTrace [] irqOn) = 1 ∧
    irqAfter irqOn (sendDebugTrace [] irqOn) = irqOn := by
  cases irqOn <;> exact ⟨rfl, rfl, rfl, rfl, rfl⟩

/-- C7: `SendDebugf` renders into the fixed 128-byte buffer and sends the
rendered text silently truncated to the buffer capacity (127 data bytes plus
the NUL terminator); the sent text is exactly the first 127 rendered bytes
and never exceeds capacity. -/
theorem sendDebugf_truncates (rendered : List Nat) (irqOn : Bool) (p : Nat)
    (h : ∀ b ∈ rendered, b ≠ 0) :
    slots p (sendDebugfTrace rendered irqOn) = (rendered.take 127).flatMap frame ∧
    (rendered.take 127).length ≤ 127 := by
  constructor
  · rw [sendDebugfTrace, snprintfBuf, slots_trace,
      cStr_append_nul _ (fun b hb => h b (List.mem_of_mem_take hb))]
  · rw [List.length_take]
    omega

theorem sendDebugf_truncates_witness :
    (∀ b ∈ [72, 105], b ≠ (0 : Nat)) ∧
      (slots 1 (sendDebugfTrace [72, 105] true) =
          (([72, 105] : List Nat).take 127).flatMap frame ∧
        (([72, 105] : List Nat).take 127).length ≤ 127) :=
  ⟨by decide, sendDebugf_truncates [72, 105] true 1 (by decide)⟩

/-- C8: for every input with at least one byte before the NUL, the pin is at
idle-high immediately before the first start bit (the action at index 2 of
the trace), and at idle-high again when `SendDebug` returns. -/
theorem sendDebug_idle_high (bytes : List Nat) (irqOn : Bool) (p : Nat)
    (h : cStr bytes ≠ []) :
    pinAfter p ((sendDebugTrace bytes irqOn).take 2) = 1 ∧
    (sendDebugTrace bytes irqOn)[2]? = some (Act.pinWrite 0) ∧
    pinAfter p (sendDebugTrace bytes irqOn) = 1 := by
  refine ⟨rfl, ?_, pinAfter_trace p bytes irqOn⟩
  obtain ⟨b, bs, hcons⟩ : ∃ b bs, cStr bytes = b :: bs := by
    cases hc : cStr bytes with
    | nil => exact absurd hc h
    | cons b bs => exact ⟨b, bs, rfl⟩
  rw [sendDebugTrace, hcons]
  rfl

theorem sendDebug_idle_high_witness :
    cStr [65] ≠ [] ∧
      (pinAfter 0 ((sendDebugTrace [65] true).take 2) = 1 ∧
        (sendDebugTrace [65] true)[2]? = some (Act.pinWrite 0) ∧
        pinAfter 0 (sendDebugTrace [65] true) = 1) :=
  ⟨by decide, sendDebug_idle_high [65] true 0 (by decide)⟩

/-- C9: decoding the slot levels emitted by `SendDebug` for a printable-ASCII
string with a conformant 8-N-1 asynchronous-serial receiver reconstructs the
string exactly. -/
theorem sendDebug_roundTrip (bytes : List Nat) (irqOn : Bool) (p : Nat)
    (h : ∀ b ∈ bytes, 32 ≤ b ∧ b ≤ 126) :
    decodeFrames (slots p (sendDebugTrace bytes irqOn)) = some bytes := by
  rw [slots_trace, cStr_eq_self bytes (fun b hb => by have := (h b hb).1; omega),
    decodeFrames_flatMap bytes (fun b hb => by have := (h b hb).2; omega)]

theorem sendDebug_roundTrip_witness :
    (∀ b ∈ [72, 105], 32 ≤ b ∧ b ≤ 126) ∧
      decodeFrames (slots 1 (sendDebugTrace [72, 105] true)) = some [72, 105] :=
  ⟨by decide, sendDebug_roundTrip [72, 105] true 1 (by decide)⟩

/-- C10: `SendDebug` transmits exactly the bytes strictly before the first NUL
of its argument — the NUL and everything after it are never emitted, so a
zero byte never appears on the wire as a data frame. -/
theorem sendDebug_nul_terminates (bytes : List Nat) (irqOn : Bool) (p : Nat) :
    slots p (sendDebugTrace bytes irqOn) =
      (bytes.takeWhile (fun b => b != 0)).flatMap frame ∧
    (bytes.takeWhile (fun b => b != 0)).all (fun b => b != 0) = true := by
  constructor
  · rw [slots_trace, cStr_eq_takeWhile]
  · rw [← cStr_eq_takeWhile]
    exact cStr_all_ne bytes

end Moteus
